import Mathlib

/-!
Verification development for the video annotation webapp (`src/webapp/app.js`).

The JavaScript source keeps one global mutable `state` record and mutates it
from DOM event handlers.  We embed the algorithmic core shallowly:

* classification symbols `'p' | 'm' | 's'` become `Kind`;
* a window object `{startSec, endSec, entries, notes, history}` becomes
  `Window`;
* each mutating function on the current window (`addPerson`, `removePerson`,
  `assignFromPending`, `revertToPending`, `undo`) becomes a pure function
  `Window → Window × Option OpErr`, where `some e` models the `alert(...)`
  early-return path (in which the JS function leaves the window untouched);
* the window-generation functions (`generateWindows`,
  `buildWindowsFromAbsRange`) become functions on an explicit session state
  `St`, with the DOM reads (`videoId` input, time inputs, minutes input)
  passed as arguments;
* JS numbers that hold epoch seconds / offsets are modelled as `Int`
  (all arithmetic performed on them in the source is integral:
  `Math.floor(ts/step)*step`, `Math.ceil(ts/step)*step`, `+`, `-`, `min`).
-/

/-- Classification symbol of one counted person: the JS strings
`'p'` (pending), `'m'` (moving), `'s'` (staying). -/
inductive Kind where
  | p
  | m
  | s
  deriving DecidableEq

/-- History (operation log) entry: the JS objects `{op:'add'}`, `{op:'remove'}`,
`{op:'assign', index, from, to}` pushed by the mutating operations.
`from` is a Lean keyword, so the fields are named `fromK`/`toK`. -/
inductive HEntry where
  | add
  | remove
  | assign (index : Nat) (fromK : Kind) (toK : Kind)
  deriving DecidableEq

/-- One annotation window: the JS object
`{startSec, endSec, entries, notes, history}`. -/
structure Window where
  startSec : Int
  endSec : Int
  entries : List Kind
  notes : String
  history : List HEntry
  deriving DecidableEq

/-- Error outcome of a window operation.  In the source these are the
`alert(...)`-and-return paths of `removePerson` / `assignFromPending` /
`revertToPending`; the error names follow the spec taxonomy (§7). -/
inductive OpErr where
  | NoPendingEntry
  | NoEntryOfKind (k : Kind)
  deriving DecidableEq

/-- Index of the last occurrence of `k` in the list, if any.  This is the
value of `i` found by the JS reverse scans
`for (let i = w.entries.length - 1; i >= 0; i--) if (w.entries[i] === k)`:
the rightmost index whose element equals `k`. -/
def lastIdxOf (k : Kind) : List Kind → Option Nat
  | [] => none
  | x :: xs =>
    match lastIdxOf k xs with
    | some i => some (i + 1)
    | none => if x = k then some 0 else none

/-- Source `addPerson` (spec: `addPending`): `w.entries.push('p'); w.history.push({op:'add'})`. -/
def addPerson (w : Window) : Window × Option OpErr :=
  ({ w with entries := w.entries ++ [Kind.p], history := w.history ++ [HEntry.add] }, none)

/-- Source `removePerson` (spec: `removePending`): remove the last `'p'` if available
(reverse scan + `splice(i, 1)`), logging `{op:'remove'}`; otherwise the
`alert('未確定の人数がありません。')` path, modelled as `NoPendingEntry`. -/
def removePerson (w : Window) : Window × Option OpErr :=
  match lastIdxOf Kind.p w.entries with
  | some i =>
    ({ w with entries := w.entries.eraseIdx i, history := w.history ++ [HEntry.remove] }, none)
  | none => (w, some OpErr.NoPendingEntry)

/-- Source `assignFromPending(toKind)` (spec: `classify`): rewrite the last `'p'`
(reverse scan) to `toKind`, logging `{op:'assign', index:i, from:'p', to:toKind}`;
otherwise the alert path, modelled as `NoPendingEntry`. -/
def assignFromPending (toKind : Kind) (w : Window) : Window × Option OpErr :=
  match lastIdxOf Kind.p w.entries with
  | some i =>
    ({ w with entries := w.entries.set i toKind,
              history := w.history ++ [HEntry.assign i Kind.p toKind] }, none)
  | none => (w, some OpErr.NoPendingEntry)

/-- Source `revertToPending(fromKind)` (spec: `declassify`): rewrite the last entry
equal to `fromKind` (reverse scan) back to `'p'`, logging
`{op:'assign', index:i, from:fromKind, to:'p'}`; otherwise the alert path,
modelled as `NoEntryOfKind fromKind`. -/
def revertToPending (fromKind : Kind) (w : Window) : Window × Option OpErr :=
  match lastIdxOf fromKind w.entries with
  | some i =>
    ({ w with entries := w.entries.set i Kind.p,
              history := w.history ++ [HEntry.assign i fromKind Kind.p] }, none)
  | none => (w, some (OpErr.NoEntryOfKind fromKind))

/-- Source `undo`: `w.history.pop()`; empty history is a plain return (no error).
`add` → remove the last `'p'` if one exists (reverse scan + splice);
`remove` → `w.entries.push('p')`; `assign` → `w.entries[last.index] = last.from`
(index-addressed; `List.set` is a no-op when the index is out of range, and in
the source an out-of-range index can only come from a corrupted history). -/
def undo (w : Window) : Window :=
  match w.history.getLast? with
  | none => w
  | some h =>
    match h with
    | HEntry.add =>
      { w with history := w.history.dropLast,
               entries := match lastIdxOf Kind.p w.entries with
                          | some i => w.entries.eraseIdx i
                          | none => w.entries }
    | HEntry.remove =>
      { w with history := w.history.dropLast, entries := w.entries ++ [Kind.p] }
    | HEntry.assign i fromK _ =>
      { w with history := w.history.dropLast, entries := w.entries.set i fromK }

/-! ### Facts about the reverse scan -/

theorem lastIdxOf_eq_none_iff (k : Kind) (l : List Kind) :
    lastIdxOf k l = none ↔ k ∉ l := by
  induction l with
  | nil => simp [lastIdxOf]
  | cons x xs ih =>
    simp only [lastIdxOf]
    cases h : lastIdxOf k xs with
    | some i =>
      have hmem : k ∈ xs := by
        by_contra hk
        have hnone := ih.mpr hk
        rw [h] at hnone
        exact Option.noConfusion hnone
      simp [hmem]
    | none =>
      by_cases hx : x = k
      · subst hx
        simp
      · have h1 : k ∉ x :: xs := by
          intro hk
          rcases List.mem_cons.mp hk with h2 | h2
          · exact hx h2.symm
          · exact (ih.mp h) h2
        simp [hx, h1]

theorem lastIdxOf_decomp (k : Kind) (l : List Kind) (i : Nat)
    (h : lastIdxOf k l = some i) :
    ∃ A B, l = A ++ k :: B ∧ A.length = i ∧ k ∉ B := by
  induction l generalizing i with
  | nil => simp [lastIdxOf] at h
  | cons x xs ih =>
    simp only [lastIdxOf] at h
    cases hxs : lastIdxOf k xs with
    | some j =>
      rw [hxs] at h
      have hij : i = j + 1 := by simpa using h.symm
      obtain ⟨A, B, hl, hlen, hB⟩ := ih j hxs
      refine ⟨x :: A, B, by simp [hl], ?_, hB⟩
      simp only [List.length_cons, hlen]
      omega
    | none =>
      rw [hxs] at h
      by_cases hx : x = k
      · rw [if_pos hx] at h
        have hi0 : i = 0 := by simpa using h.symm
        exact ⟨[], xs, by simp [hx], by simp [hi0],
          (lastIdxOf_eq_none_iff k xs).mp hxs⟩
      · simp [hx] at h

theorem lastIdxOf_append_self (k : Kind) (l : List Kind) :
    lastIdxOf k (l ++ [k]) = some l.length := by
  induction l with
  | nil => simp [lastIdxOf]
  | cons x xs ih => simp [lastIdxOf, ih]

theorem eraseIdx_append_middle (A B : List Kind) (k : Kind) :
    (A ++ k :: B).eraseIdx A.length = A ++ B := by
  induction A with
  | nil => simp [List.eraseIdx]
  | cons a A ih => simp [List.eraseIdx, ih]

theorem set_append_middle (A B : List Kind) (k v : Kind) :
    (A ++ k :: B).set A.length v = A ++ v :: B := by
  induction A with
  | nil => simp
  | cons a A ih => simp [List.set, ih]

theorem lastIdxOf_is_greatest (k : Kind) (l : List Kind) (i : Nat)
    (h : lastIdxOf k l = some i) :
    ∃ hi : i < l.length,
      l.get ⟨i, hi⟩ = k ∧
        ∀ j, ∀ hj : j < l.length, l.get ⟨j, hj⟩ = k → j ≤ i := by
  induction l generalizing i with
  | nil => simp [lastIdxOf] at h
  | cons x xs ih =>
    simp only [lastIdxOf] at h
    cases hxs : lastIdxOf k xs with
    | some j =>
      rw [hxs] at h
      have hij : i = j + 1 := by simpa using h.symm
      obtain ⟨hj, hget, hmax⟩ := ih j hxs
      subst hij
      refine ⟨by simpa using Nat.succ_lt_succ hj, hget, ?_⟩
      intro t ht hgt
      cases t with
      | zero => exact Nat.zero_le _
      | succ s =>
        have hs : s < xs.length := by simpa using ht
        have hsk : xs.get ⟨s, hs⟩ = k := hgt
        exact Nat.succ_le_succ (hmax s hs hsk)
    | none =>
      rw [hxs] at h
      by_cases hx : x = k
      · rw [if_pos hx] at h
        have hi0 : i = 0 := by simpa using h.symm
        subst hi0
        refine ⟨by simp, hx, ?_⟩
        intro t ht hgt
        cases t with
        | zero => exact Nat.le_refl 0
        | succ s =>
          exfalso
          have hs : s < xs.length := by simpa using ht
          have hsk : xs.get ⟨s, hs⟩ = k := hgt
          have hmem : k ∈ xs := hsk ▸ xs.get_mem s hs
          exact (lastIdxOf_eq_none_iff k xs).mp hxs hmem
      · simp [hx] at h

theorem getLast?_eq_some_decomp {α : Type} (l : List α) (a : α)
    (h : l.getLast? = some a) : ∃ t, l = t ++ [a] := by
  induction l with
  | nil => simp at h
  | cons x xs ih =>
    cases xs with
    | nil =>
      simp at h
      exact ⟨[], by simp [h]⟩
    | cons y ys =>
      rw [List.getLast?_cons_cons] at h
      obtain ⟨t, ht⟩ := ih h
      exact ⟨x :: t, by simp [ht]⟩

/-! ### Claims about the classification state machine -/

/-- C3: `assignFromPending` (classify) rewrites the `Pending` entry with the
highest index (the most recently added one), and `revertToPending`
(declassify) rewrites the entry of the sought kind with the highest index;
in particular, starting from an empty window,
`addPerson(); addPerson(); assignFromPending('m')` yields entries
`['p', 'm']` — the later-added pending became moving. -/
theorem classify_targets_last_pending :
    (∀ (w : Window) (toKind : Kind) (i : Nat),
        lastIdxOf Kind.p w.entries = some i →
          (assignFromPending toKind w).1.entries = w.entries.set i toKind ∧
          ∃ hi : i < w.entries.length,
            w.entries.get ⟨i, hi⟩ = Kind.p ∧
              ∀ j, ∀ hj : j < w.entries.length,
                w.entries.get ⟨j, hj⟩ = Kind.p → j ≤ i) ∧
    (∀ (w : Window) (fromKind : Kind) (i : Nat),
        lastIdxOf fromKind w.entries = some i →
          (revertToPending fromKind w).1.entries = w.entries.set i Kind.p ∧
          ∃ hi : i < w.entries.length,
            w.entries.get ⟨i, hi⟩ = fromKind ∧
              ∀ j, ∀ hj : j < w.entries.length,
                w.entries.get ⟨j, hj⟩ = fromKind → j ≤ i) ∧
    (assignFromPending Kind.m
        (addPerson (addPerson ⟨0, 300, [], "", []⟩).1).1).1.entries
      = [Kind.p, Kind.m] := by
  refine ⟨?_, ?_, by decide⟩
  · intro w toKind i h
    exact ⟨by simp [assignFromPending, h], lastIdxOf_is_greatest _ _ _ h⟩
  · intro w fromKind i h
    exact ⟨by simp [revertToPending, h], lastIdxOf_is_greatest _ _ _ h⟩

theorem classify_targets_last_pending_witness :
    (assignFromPending Kind.m ⟨0, 300, [Kind.p, Kind.p], "", []⟩).1.entries
        = ([Kind.p, Kind.p] : List Kind).set 1 Kind.m ∧
    ∃ hi : 1 < ([Kind.p, Kind.p] : List Kind).length,
      ([Kind.p, Kind.p] : List Kind).get ⟨1, hi⟩ = Kind.p ∧
        ∀ j, ∀ hj : j < ([Kind.p, Kind.p] : List Kind).length,
          ([Kind.p, Kind.p] : List Kind).get ⟨j, hj⟩ = Kind.p → j ≤ 1 :=
  classify_targets_last_pending.1 ⟨0, 300, [Kind.p, Kind.p], "", []⟩ Kind.m 1 rfl

/-- C8: `removePerson` and `assignFromPending` fail with `NoPendingEntry`
exactly when the window holds no `'p'` entry, and `revertToPending k` fails
with `NoEntryOfKind k` exactly when no entry of kind `k` exists; on such a
failure the window (entries and history) is left unchanged, and `undo` with
an empty history is a no-op, not an error. -/
theorem ops_fail_iff_and_atomic :
    ∀ (w : Window) (k : Kind),
      ((removePerson w).2 = some OpErr.NoPendingEntry ↔ Kind.p ∉ w.entries) ∧
      ((removePerson w).2 ≠ none → (removePerson w).1 = w) ∧
      ((assignFromPending k w).2 = some OpErr.NoPendingEntry ↔
        Kind.p ∉ w.entries) ∧
      ((assignFromPending k w).2 ≠ none → (assignFromPending k w).1 = w) ∧
      ((revertToPending k w).2 = some (OpErr.NoEntryOfKind k) ↔
        k ∉ w.entries) ∧
      ((revertToPending k w).2 ≠ none → (revertToPending k w).1 = w) ∧
      (w.history = [] → undo w = w) := by
  intro w k
  have hmem : ∀ (k' : Kind) (i : Nat),
      lastIdxOf k' w.entries = some i → k' ∈ w.entries := by
    intro k' i h
    by_contra hc
    rw [(lastIdxOf_eq_none_iff k' w.entries).mpr hc] at h
    exact Option.noConfusion h
  refine ⟨?_, ?_, ?_, ?_, ?_, ?_, ?_⟩
  · cases h : lastIdxOf Kind.p w.entries with
    | some i => simp [removePerson, h, hmem Kind.p i h]
    | none => simp [removePerson, h, (lastIdxOf_eq_none_iff _ _).mp h]
  · cases h : lastIdxOf Kind.p w.entries with
    | some i => simp [removePerson, h]
    | none => simp [removePerson, h]
  · cases h : lastIdxOf Kind.p w.entries with
    | some i => simp [assignFromPending, h, hmem Kind.p i h]
    | none => simp [assignFromPending, h, (lastIdxOf_eq_none_iff _ _).mp h]
  · cases h : lastIdxOf Kind.p w.entries with
    | some i => simp [assignFromPending, h]
    | none => simp [assignFromPending, h]
  · cases h : lastIdxOf k w.entries with
    | some i => simp [revertToPending, h, hmem k i h]
    | none => simp [revertToPending, h, (lastIdxOf_eq_none_iff _ _).mp h]
  · cases h : lastIdxOf k w.entries with
    | some i => simp [revertToPending, h]
    | none => simp [revertToPending, h]
  · intro h
    simp [undo, h]

theorem ops_fail_iff_and_atomic_witness :
    (removePerson ⟨0, 300, [], "", []⟩).1 = ⟨0, 300, [], "", []⟩ ∧
    undo ⟨0, 300, [], "", []⟩ = ⟨0, 300, [], "", []⟩ :=
  ⟨(ops_fail_iff_and_atomic ⟨0, 300, [], "", []⟩ Kind.m).2.1 (by decide),
   (ops_fail_iff_and_atomic ⟨0, 300, [], "", []⟩ Kind.m).2.2.2.2.2.2 rfl⟩

/-- C2 counterexample: the claimed undo round-trip fails for `removePerson`
on the window with entries `['p', 'm']`: the removed `Pending` sat at index
0, but undo re-appends it at the end, yielding `['m', 'p']`. -/
theorem undo_remove_not_exact_counterexample :
    (undo (removePerson ⟨0, 300, [Kind.p, Kind.m], "", []⟩).1).entries
      ≠ [Kind.p, Kind.m] := by decide

/-- C2 (amended): undo after a single successful operation restores the
entries list exactly for `addPerson`, `assignFromPending` and
`revertToPending`; after a successful `removePerson` it restores the entries
exactly when the removed `Pending` was the final entry, and in general it
restores the entries only up to permutation (the popped `Remove` record
re-appends a `'p'` at the end rather than at the removed index). -/
theorem undo_round_trip_amended :
    (∀ w : Window, (undo (addPerson w).1).entries = w.entries) ∧
    (∀ (w : Window) (k : Kind), Kind.p ∈ w.entries →
        (undo (assignFromPending k w).1).entries = w.entries) ∧
    (∀ (w : Window) (k : Kind), k ∈ w.entries →
        (undo (revertToPending k w).1).entries = w.entries) ∧
    (∀ w : Window, w.entries.getLast? = some Kind.p →
        (undo (removePerson w).1).entries = w.entries) ∧
    (∀ w : Window, Kind.p ∈ w.entries →
        (undo (removePerson w).1).entries.Perm w.entries) := by
  refine ⟨?_, ?_, ?_, ?_, ?_⟩
  · intro w
    simp only [addPerson, undo]
    rw [List.getLast?_concat]
    simp only [lastIdxOf_append_self]
    have h := eraseIdx_append_middle w.entries [] Kind.p
    simpa using h
  · intro w k hk
    cases h : lastIdxOf Kind.p w.entries with
    | none => exact absurd ((lastIdxOf_eq_none_iff _ _).mp h) (by simpa using hk)
    | some i =>
      obtain ⟨A, B, hl, hlen, hB⟩ := lastIdxOf_decomp _ _ _ h
      simp only [assignFromPending, h, undo]
      rw [List.getLast?_concat]
      simp only [hl, ← hlen, set_append_middle]
  · intro w k hk
    cases h : lastIdxOf k w.entries with
    | none => exact absurd ((lastIdxOf_eq_none_iff _ _).mp h) (by simpa using hk)
    | some i =>
      obtain ⟨A, B, hl, hlen, hB⟩ := lastIdxOf_decomp _ _ _ h
      simp only [revertToPending, h, undo]
      rw [List.getLast?_concat]
      simp only [hl, ← hlen, set_append_middle]
  · intro w hlast
    obtain ⟨t, ht⟩ := getLast?_eq_some_decomp _ _ hlast
    have hfind : lastIdxOf Kind.p w.entries = some t.length := by
      rw [ht]
      exact lastIdxOf_append_self _ _
    simp only [removePerson, hfind, undo]
    rw [List.getLast?_concat]
    simp only [ht]
    have h := eraseIdx_append_middle t [] Kind.p
    simpa using h
  · intro w hk
    cases h : lastIdxOf Kind.p w.entries with
    | none => exact absurd ((lastIdxOf_eq_none_iff _ _).mp h) (by simpa using hk)
    | some i =>
      obtain ⟨A, B, hl, hlen, hB⟩ := lastIdxOf_decomp _ _ _ h
      simp only [removePerson, h, undo]
      rw [List.getLast?_concat]
      simp only [hl, ← hlen, eraseIdx_append_middle]
      rw [List.append_assoc]
      exact (List.perm_append_singleton _ _).append_left A

theorem undo_round_trip_amended_witness :
    (undo (assignFromPending Kind.m ⟨0, 300, [Kind.p], "", []⟩).1).entries
      = [Kind.p] :=
  undo_round_trip_amended.2.1 ⟨0, 300, [Kind.p], "", []⟩ Kind.m (by decide)

/-! ### Coverage model and wall-clock window generation -/

/-- One coverage interval `{startAbs, endAbs}` (epoch seconds), one per
ingested source file (`state.coverage` elements). -/
structure CoverageInterval where
  startAbs : Int
  endAbs : Int
  deriving DecidableEq

/-- The `isCovered` predicate from `buildWindowsFromAbsRange`:
`cov.some((c) => c.startAbs <= a && b <= c.endAbs)`. -/
def isCovered (cov : List CoverageInterval) (a b : Int) : Bool :=
  cov.any fun c => decide (c.startAbs ≤ a ∧ b ≤ c.endAbs)

/-- C1: `isCovered(a, b)` is true iff some single coverage interval `c`
satisfies `c.startAbs ≤ a ∧ b ≤ c.endAbs`; in particular a window straddling
the boundary of two contiguous intervals (`c1.endAbs = c2.startAbs`,
`a < c1.endAbs < b`) is reported uncovered even though `[a, b)` lies inside
the union of the two intervals. -/
theorem isCovered_iff_single_interval :
    (∀ (cov : List CoverageInterval) (a b : Int),
        isCovered cov a b = true ↔
          ∃ c ∈ cov, c.startAbs ≤ a ∧ b ≤ c.endAbs) ∧
    (∀ (c1 c2 : CoverageInterval) (a b : Int),
        c1.endAbs = c2.startAbs → c1.startAbs ≤ a → a < c1.endAbs →
          c1.endAbs < b → b ≤ c2.endAbs →
          isCovered [c1, c2] a b = false) := by
  constructor
  · intro cov a b
    simp [isCovered]
  · intro c1 c2 a b h1 h2 h3 h4 h5
    simp only [isCovered, List.any_cons, List.any_nil, Bool.or_false,
      Bool.or_eq_false_iff, decide_eq_false_iff_not]
    constructor
    · intro hc
      omega
    · intro hc
      omega

theorem isCovered_iff_single_interval_witness :
    isCovered [⟨0, 10⟩, ⟨10, 20⟩] 5 15 = false :=
  isCovered_iff_single_interval.2 ⟨0, 10⟩ ⟨10, 20⟩ 5 15 rfl (by decide)
    (by decide) (by decide) (by decide)

/-- The global session state of `app.js` (the fields of `state` that the core
algorithms read or write; `coverage: null` becomes `none`). -/
structure St where
  videoId : String
  windowSeconds : Int
  windows : List Window
  currentIndex : Nat
  absOrigin : Option Int
  coverage : Option (List CoverageInterval)
  deriving DecidableEq

/-- Alignment helper `alignDown(ts) = Math.floor(ts / step) * step`.  For an integer `ts` and
positive integer `step`, `Math.floor` of the real quotient is integer floor
division, i.e. `Int.fdiv`. -/
def alignDown (ts stepS : Int) : Int := ts.fdiv stepS * stepS

/-- Alignment helper `alignUp(ts) = Math.ceil(ts / step) * step`; for integers,
`Math.ceil(ts/step) = -Math.floor(-ts/step)`. -/
def alignUp (ts stepS : Int) : Int := -((-ts).fdiv stepS) * stepS

theorem alignDown_le (ts stepS : Int) (h : 0 < stepS) :
    alignDown ts stepS ≤ ts := by
  unfold alignDown
  rw [Int.fdiv_eq_ediv ts (le_of_lt h)]
  exact Int.ediv_mul_le ts (ne_of_gt h)

theorem le_alignUp (ts stepS : Int) (h : 0 < stepS) :
    ts ≤ alignUp ts stepS := by
  unfold alignUp
  rw [neg_mul]
  have h1 : (-ts).fdiv stepS * stepS ≤ -ts := by
    rw [Int.fdiv_eq_ediv (-ts) (le_of_lt h)]
    exact Int.ediv_mul_le (-ts) (ne_of_gt h)
  omega

theorem dvd_alignDown (ts stepS : Int) : stepS ∣ alignDown ts stepS :=
  dvd_mul_left stepS _

theorem dvd_alignUp (ts stepS : Int) : stepS ∣ alignUp ts stepS :=
  dvd_mul_left stepS _

/-- The generation loop of `buildWindowsFromAbsRange`:
`for (let t = alignedStart; t + step <= alignedEnd; t += step)`, pushing the
window `(t - startAbs, t + step - startAbs)` whenever `isCovered(t, t+step)`.
The `0 < stepS` conjunct makes the recursion well founded; at every call site
in the source `step = Math.max(1, minutes) * 60 ≥ 60 > 0`, so it does not
change the modelled behaviour. -/
def gridLoop (cov : List CoverageInterval) (startAbs stepS alignedEnd : Int)
    (t : Int) : List Window :=
  if _h : 0 < stepS ∧ t + stepS ≤ alignedEnd then
    if isCovered cov t (t + stepS) then
      ⟨t - startAbs, t + stepS - startAbs, [], "", []⟩ ::
        gridLoop cov startAbs stepS alignedEnd (t + stepS)
    else gridLoop cov startAbs stepS alignedEnd (t + stepS)
  else []
termination_by (alignedEnd - t).toNat
decreasing_by
  all_goals simp_wf
  all_goals omega

/-- Result of `buildWindowsFromAbsRange`: the new session state, the JS
return value (`false` on the empty-`videoId` alert path), and whether the
zero-window `setStatus(..., 'warn')` notice was issued. -/
structure BuildResult where
  st : St
  ok : Bool
  notice : Bool

/-- Source `buildWindowsFromAbsRange(startAbs, endAbs, minutes)`.  `vidInput` models
the trimmed value of the `#videoId` text input
(`$("#videoId").value.trim()`) read at the top of the function.  When
`state.coverage` is not an array the loop falls back to the single interval
`[{startAbs, endAbs}]`. -/
def buildWindowsFromAbsRange (vidInput : String) (startAbs endAbs minutes : Int)
    (st : St) : BuildResult :=
  if vidInput = "" then ⟨st, false, false⟩
  else
    ⟨{ st with
        videoId := vidInput,
        windowSeconds := max 1 minutes * 60,
        absOrigin := some startAbs,
        windows :=
          gridLoop
            (match st.coverage with
             | some c => c
             | none => [⟨startAbs, endAbs⟩])
            startAbs (max 1 minutes * 60)
            (alignDown endAbs (max 1 minutes * 60))
            (alignUp startAbs (max 1 minutes * 60)),
        currentIndex := 0 },
      true,
      (gridLoop
        (match st.coverage with
         | some c => c
         | none => [⟨startAbs, endAbs⟩])
        startAbs (max 1 minutes * 60)
        (alignDown endAbs (max 1 minutes * 60))
        (alignUp startAbs (max 1 minutes * 60))).isEmpty⟩

theorem mem_gridLoop (cov : List CoverageInterval) (startAbs stepS alignedEnd : Int)
    (hstep : 0 < stepS) :
    ∀ (t : Int), stepS ∣ t → ∀ w : Window,
      (w ∈ gridLoop cov startAbs stepS alignedEnd t ↔
        ∃ a : Int, stepS ∣ a ∧ t ≤ a ∧ a + stepS ≤ alignedEnd ∧
          isCovered cov a (a + stepS) = true ∧
          w = ⟨a - startAbs, a + stepS - startAbs, [], "", []⟩) := by
  have main : ∀ (n : Nat) (t : Int), (alignedEnd - t).toNat = n → stepS ∣ t →
      ∀ w : Window,
        (w ∈ gridLoop cov startAbs stepS alignedEnd t ↔
          ∃ a : Int, stepS ∣ a ∧ t ≤ a ∧ a + stepS ≤ alignedEnd ∧
            isCovered cov a (a + stepS) = true ∧
            w = ⟨a - startAbs, a + stepS - startAbs, [], "", []⟩) := by
    intro n
    induction n using Nat.strong_induction_on with
    | _ n ih =>
      intro t hn ht w
      rw [gridLoop]
      by_cases hcond : 0 < stepS ∧ t + stepS ≤ alignedEnd
      · rw [dif_pos hcond]
        have hmeas : (alignedEnd - (t + stepS)).toNat < n := by omega
        have hrec := ih _ hmeas (t + stepS) rfl (dvd_add ht dvd_rfl)
        by_cases hc : isCovered cov t (t + stepS) = true
        · rw [if_pos hc]
          constructor
          · intro hw
            rcases List.mem_cons.mp hw with hw | hw
            · exact ⟨t, ht, le_refl t, hcond.2, hc, hw⟩
            · obtain ⟨a, ha1, ha2, ha3, ha4, ha5⟩ := (hrec w).mp hw
              exact ⟨a, ha1, by omega, ha3, ha4, ha5⟩
          · rintro ⟨a, ha1, ha2, ha3, ha4, ha5⟩
            rcases eq_or_lt_of_le ha2 with heq | hlt
            · subst heq
              rw [ha5]
              exact List.mem_cons_self _ _
            · have hd : stepS ∣ (a - t) := dvd_sub ha1 ht
              have hle : stepS ≤ a - t := Int.le_of_dvd (by omega) hd
              exact List.mem_cons_of_mem _
                ((hrec w).mpr ⟨a, ha1, by omega, ha3, ha4, ha5⟩)
        · rw [if_neg hc]
          constructor
          · intro hw
            obtain ⟨a, ha1, ha2, ha3, ha4, ha5⟩ := (hrec w).mp hw
            exact ⟨a, ha1, by omega, ha3, ha4, ha5⟩
          · rintro ⟨a, ha1, ha2, ha3, ha4, ha5⟩
            rcases eq_or_lt_of_le ha2 with heq | hlt
            · subst heq
              exact absurd ha4 hc
            · have hd : stepS ∣ (a - t) := dvd_sub ha1 ht
              have hle : stepS ≤ a - t := Int.le_of_dvd (by omega) hd
              exact (hrec w).mpr ⟨a, ha1, by omega, ha3, ha4, ha5⟩
      · rw [dif_neg hcond]
        constructor
        · intro hw
          exact absurd hw (List.not_mem_nil w)
        · rintro ⟨a, ha1, ha2, ha3, ha4, ha5⟩
          exfalso
          have hno : ¬ (t + stepS ≤ alignedEnd) := fun hx => hcond ⟨hstep, hx⟩
          omega
  intro t ht w
  exact main _ t rfl ht w

/-- C4: in wall-clock mode (with an established coverage list), generation
succeeds and emits exactly the on-grid windows: `w` is emitted iff it is
`(a - startAbs, a + step - startAbs)` for some multiple `a` of
`step = max(1, minutes) * 60` with `alignUp(startAbs) ≤ a` and
`a + step ≤ alignDown(endAbs)` that is fully covered by some single coverage
interval; every emitted window has length exactly `step`; and zero surviving
windows is not an error: `ok` is still `true` and the warn notice is issued
exactly when the window list is empty. -/
theorem buildWindows_wallclock_grid :
    ∀ (vidInput : String) (cov : List CoverageInterval)
      (startAbs endAbs minutes : Int) (st : St),
      st.coverage = some cov →
      vidInput ≠ "" →
      (buildWindowsFromAbsRange vidInput startAbs endAbs minutes st).ok = true ∧
      (∀ w : Window,
          w ∈ (buildWindowsFromAbsRange vidInput startAbs endAbs minutes
                  st).st.windows ↔
            ∃ a : Int, (max 1 minutes * 60) ∣ a ∧
              alignUp startAbs (max 1 minutes * 60) ≤ a ∧
              a + max 1 minutes * 60 ≤ alignDown endAbs (max 1 minutes * 60) ∧
              isCovered cov a (a + max 1 minutes * 60) = true ∧
              w = ⟨a - startAbs, a + max 1 minutes * 60 - startAbs, [], "", []⟩) ∧
      (∀ w : Window,
          w ∈ (buildWindowsFromAbsRange vidInput startAbs endAbs minutes
                  st).st.windows →
            w.endSec - w.startSec = max 1 minutes * 60) ∧
      ((buildWindowsFromAbsRange vidInput startAbs endAbs minutes st).notice
          = true ↔
        (buildWindowsFromAbsRange vidInput startAbs endAbs minutes
            st).st.windows = []) := by
  intro vidInput cov startAbs endAbs minutes st hcov hvid
  have hmax : (1 : Int) ≤ max 1 minutes := le_max_left 1 minutes
  have hstep : 0 < max 1 minutes * 60 := by omega
  have hmem := mem_gridLoop cov startAbs (max 1 minutes * 60)
    (alignDown endAbs (max 1 minutes * 60)) hstep
    (alignUp startAbs (max 1 minutes * 60))
    (dvd_alignUp startAbs (max 1 minutes * 60))
  simp only [buildWindowsFromAbsRange, if_neg hvid, hcov]
  refine ⟨trivial, hmem, ?_, ?_⟩
  · intro w hw
    obtain ⟨a, _, _, _, _, ha5⟩ := (hmem w).mp hw
    subst ha5
    dsimp only
    omega
  · cases hws : gridLoop cov startAbs (max 1 minutes * 60)
        (alignDown endAbs (max 1 minutes * 60))
        (alignUp startAbs (max 1 minutes * 60)) with
    | nil => simp
    | cons x xs => simp

theorem buildWindows_wallclock_grid_witness :
    (buildWindowsFromAbsRange ("v") 0 600 5
        ⟨"", 300, [], 0, none, some [⟨0, 600⟩]⟩).ok = true ∧
    (∀ w : Window,
        w ∈ (buildWindowsFromAbsRange ("v") 0 600 5
                ⟨"", 300, [], 0, none, some [⟨0, 600⟩]⟩).st.windows ↔
          ∃ a : Int, (max 1 5 * 60) ∣ a ∧
            alignUp 0 (max 1 5 * 60) ≤ a ∧
            a + max 1 5 * 60 ≤ alignDown 600 (max 1 5 * 60) ∧
            isCovered [⟨0, 600⟩] a (a + max 1 5 * 60) = true ∧
            w = ⟨a - 0, a + max 1 5 * 60 - 0, [], "", []⟩) ∧
    (∀ w : Window,
        w ∈ (buildWindowsFromAbsRange ("v") 0 600 5
                ⟨"", 300, [], 0, none, some [⟨0, 600⟩]⟩).st.windows →
          w.endSec - w.startSec = max 1 5 * 60) ∧
    ((buildWindowsFromAbsRange ("v") 0 600 5
          ⟨"", 300, [], 0, none, some [⟨0, 600⟩]⟩).notice = true ↔
      (buildWindowsFromAbsRange ("v") 0 600 5
          ⟨"", 300, [], 0, none, some [⟨0, 600⟩]⟩).st.windows = []) :=
  buildWindows_wallclock_grid ("v") [⟨0, 600⟩] 0 600 5
    ⟨"", 300, [], 0, none, some [⟨0, 600⟩]⟩ rfl (by decide)

/-- C10: when no coverage set is established (`state.coverage` is not an
array), the requested range `[startAbs, endAbs]` acts as a single coverage
interval, so every on-grid window of length `step` inside
`[alignUp(startAbs), alignDown(endAbs)]` is emitted. -/
theorem buildWindows_no_coverage_fallback :
    ∀ (vidInput : String) (startAbs endAbs minutes : Int) (st : St),
      st.coverage = none →
      vidInput ≠ "" →
      ∀ w : Window,
        w ∈ (buildWindowsFromAbsRange vidInput startAbs endAbs minutes
                st).st.windows ↔
          ∃ a : Int, (max 1 minutes * 60) ∣ a ∧
            alignUp startAbs (max 1 minutes * 60) ≤ a ∧
            a + max 1 minutes * 60 ≤ alignDown endAbs (max 1 minutes * 60) ∧
            w = ⟨a - startAbs, a + max 1 minutes * 60 - startAbs, [], "", []⟩ := by
  intro vidInput startAbs endAbs minutes st hcov hvid w
  have hmax : (1 : Int) ≤ max 1 minutes := le_max_left 1 minutes
  have hstep : 0 < max 1 minutes * 60 := by omega
  have hmem := mem_gridLoop [⟨startAbs, endAbs⟩] startAbs (max 1 minutes * 60)
    (alignDown endAbs (max 1 minutes * 60)) hstep
    (alignUp startAbs (max 1 minutes * 60))
    (dvd_alignUp startAbs (max 1 minutes * 60))
  simp only [buildWindowsFromAbsRange, if_neg hvid, hcov]
  rw [hmem w]
  constructor
  · rintro ⟨a, ha1, ha2, ha3, _, ha5⟩
    exact ⟨a, ha1, ha2, ha3, ha5⟩
  · rintro ⟨a, ha1, ha2, ha3, ha5⟩
    refine ⟨a, ha1, ha2, ha3, ?_, ha5⟩
    have h1 : startAbs ≤ a :=
      le_trans (le_alignUp startAbs (max 1 minutes * 60) hstep) ha2
    have h2 : a + max 1 minutes * 60 ≤ endAbs :=
      le_trans ha3 (alignDown_le endAbs (max 1 minutes * 60) hstep)
    simp [isCovered, h1, h2]

theorem buildWindows_no_coverage_fallback_witness :
    (⟨0 - 0, 0 + max 1 5 * 60 - 0, [], "", []⟩ : Window) ∈
      (buildWindowsFromAbsRange ("v") 0 600 5
          ⟨"", 300, [], 0, none, none⟩).st.windows :=
  (buildWindows_no_coverage_fallback ("v") 0 600 5
      ⟨"", 300, [], 0, none, none⟩ rfl (by decide)
      ⟨0 - 0, 0 + max 1 5 * 60 - 0, [], "", []⟩).mpr
    ⟨0, dvd_zero _, by decide, by decide, rfl⟩

/-- The manual-mode window loop of `generateWindows`:
`for (let t = start; t < end; t += state.windowSeconds)` pushing
`{startSec: t, endSec: Math.min(t + windowSeconds, end), entries: [], notes: "", history: []}`.
The `0 < stepS` conjunct makes the recursion well founded; in the source
`state.windowSeconds = Math.max(1, minutes) * 60 ≥ 60 > 0` always. -/
def relLoop (stepS endT : Int) (t : Int) : List Window :=
  if _h : 0 < stepS ∧ t < endT then
    ⟨t, min (t + stepS) endT, [], "", []⟩ :: relLoop stepS endT (t + stepS)
  else []
termination_by (endT - t).toNat
decreasing_by
  all_goals simp_wf
  all_goals omega

/-- Error outcome of `generateWindows`: the two `alert(...)`-and-return
validation paths (empty `videoId`, or `!(end > start)`). -/
inductive GenErr where
  | validation
  deriving DecidableEq

/-- Source `generateWindows()` (manual mode).  `vidInput` models the trimmed
`#videoId` input, `start`/`endT` the parsed `#startTime`/`#endTime` values and
`minutes` the parsed `#windowMinutes` value (`Math.max(1, ...)` is applied in
the source before the function body uses it, so it appears here as
`max 1 minutes`).  On a validation failure the session state is returned
untouched together with `some .validation`. -/
def generateWindows (vidInput : String) (start endT minutes : Int) (st : St) :
    St × Option GenErr :=
  if vidInput = "" then (st, some GenErr.validation)
  else if ¬ (start < endT) then (st, some GenErr.validation)
  else
    ({ st with
        videoId := vidInput,
        windowSeconds := max 1 minutes * 60,
        absOrigin := none,
        windows := relLoop (max 1 minutes * 60) endT start,
        currentIndex := 0 }, none)

theorem relLoop_shape (stepS endT : Int) :
    ∀ t : Int, ∀ w ∈ relLoop stepS endT t,
      t ≤ w.startSec ∧ w.startSec < endT ∧
        w.endSec = min (w.startSec + stepS) endT := by
  intro t
  induction t using relLoop.induct stepS endT with
  | case1 t hcond ih =>
    intro w hw
    rw [relLoop, dif_pos hcond] at hw
    rcases List.mem_cons.mp hw with hw | hw
    · subst hw
      exact ⟨le_refl t, hcond.2, rfl⟩
    · obtain ⟨h1, h2, h3⟩ := ih w hw
      have hstep : 0 < stepS := hcond.1
      exact ⟨by omega, h2, h3⟩
  | case2 t hcond =>
    intro w hw
    rw [relLoop, dif_neg hcond] at hw
    exact absurd hw (List.not_mem_nil w)

theorem relLoop_countP (stepS endT : Int) (hstep : 0 < stepS) :
    ∀ t : Int, ∀ x : Int, t ≤ x → x < endT →
      (relLoop stepS endT t).countP
        (fun w => decide (w.startSec ≤ x ∧ x < w.endSec)) = 1 := by
  intro t
  induction t using relLoop.induct stepS endT with
  | case1 t hcond ih =>
    intro x hx1 hx2
    rw [relLoop, dif_pos hcond, List.countP_cons]
    by_cases hin : x < min (t + stepS) endT
    · have hxin := lt_min_iff.mp hin
      have htail : (relLoop stepS endT (t + stepS)).countP
          (fun w => decide (w.startSec ≤ x ∧ x < w.endSec)) = 0 := by
        rw [List.countP_eq_zero]
        intro w hw
        obtain ⟨h1, _, _⟩ := relLoop_shape stepS endT (t + stepS) w hw
        simp only [decide_eq_true_eq, not_and, not_lt]
        intro hwx
        omega
      rw [htail]
      simp [hx1, hin]
    · have hmle : min (t + stepS) endT ≤ x := le_of_not_lt hin
      have hge : t + stepS ≤ x := by
        rcases min_le_iff.mp hmle with h | h
        · exact h
        · omega
      have hnot : ¬ (x < min (t + stepS) endT) := not_lt.mpr hmle
      rw [ih x hge hx2]
      simp [hnot]
  | case2 t hcond =>
    intro x hx1 hx2
    exfalso
    have hlt : ¬ t < endT := fun hl => hcond ⟨hstep, hl⟩
    omega

theorem relLoop_chain (stepS endT : Int) :
    ∀ t : Int,
      List.Chain'
        (fun w1 w2 : Window => w1.endSec = w2.startSec ∧
          w2.startSec = w1.startSec + stepS)
        (relLoop stepS endT t) := by
  intro t
  induction t using relLoop.induct stepS endT with
  | case1 t hcond ih =>
    rw [relLoop, dif_pos hcond]
    cases hrest : relLoop stepS endT (t + stepS) with
    | nil => simp
    | cons y ys =>
      rw [List.chain'_cons]
      have hy : y.startSec = t + stepS := by
        by_cases hcond2 : 0 < stepS ∧ t + stepS < endT
        · rw [relLoop, dif_pos hcond2] at hrest
          have := (List.cons.injEq _ _ _ _).mp hrest
          rw [← this.1]
        · rw [relLoop, dif_neg hcond2] at hrest
          exact absurd hrest.symm (List.cons_ne_nil y ys)
      have hlt : t + stepS < endT := by
        by_cases hcond2 : 0 < stepS ∧ t + stepS < endT
        · exact hcond2.2
        · rw [relLoop, dif_neg hcond2] at hrest
          exact absurd hrest.symm (List.cons_ne_nil y ys)
      constructor
      · constructor
        · show min (t + stepS) endT = y.startSec
          rw [hy]
          omega
        · show y.startSec = t + stepS
          exact hy
      · rw [← hrest]
        exact ih
  | case2 t hcond =>
    rw [relLoop, dif_neg hcond]
    simp

theorem relLoop_dropLast_full (stepS endT : Int) :
    ∀ t : Int, ∀ w ∈ (relLoop stepS endT t).dropLast,
      w.endSec - w.startSec = stepS := by
  intro t
  induction t using relLoop.induct stepS endT with
  | case1 t hcond ih =>
    rw [relLoop, dif_pos hcond]
    cases hrest : relLoop stepS endT (t + stepS) with
    | nil => simp
    | cons y ys =>
      intro w hw
      have hlt : t + stepS < endT := by
        by_cases hcond2 : 0 < stepS ∧ t + stepS < endT
        · exact hcond2.2
        · rw [relLoop, dif_neg hcond2] at hrest
          exact absurd hrest.symm (List.cons_ne_nil y ys)
      rw [List.dropLast_cons_of_ne_nil (List.cons_ne_nil y ys)] at hw
      rcases List.mem_cons.mp hw with hw | hw
      · subst hw
        show min (t + stepS) endT - t = stepS
        omega
      · rw [← hrest] at hw
        exact ih w hw
  | case2 t hcond =>
    rw [relLoop, dif_neg hcond]
    simp

/-- C6: for `end > start` and `step > 0` the manual-mode window loop produces
the windows `(a, min(a + step, end))` for `a = start, start+step, ...` while
`a < end`: the first window starts at `start`, consecutive windows are
contiguous (`w1.endSec = w2.startSec`) with starts increasing by exactly
`step` (hence sorted ascending and pairwise non-overlapping), every point of
`[start, end)` is covered by exactly one window, and every window except
possibly the last has length exactly `step` (all windows have positive length
at most `step`).  `generateWindows` emits exactly this loop's output with
`step = max(1, minutes) * 60`. -/
theorem manual_windows_tile :
    ∀ (start endT stepS : Int), start < endT → 0 < stepS →
      (∃ rest, relLoop stepS endT start =
          ⟨start, min (start + stepS) endT, [], "", []⟩ :: rest) ∧
      (∀ w ∈ relLoop stepS endT start,
          start ≤ w.startSec ∧ w.startSec < endT ∧
            w.endSec = min (w.startSec + stepS) endT ∧
            w.startSec < w.endSec ∧ w.endSec - w.startSec ≤ stepS ∧
            w.endSec ≤ endT) ∧
      List.Chain'
        (fun w1 w2 : Window => w1.endSec = w2.startSec ∧
          w2.startSec = w1.startSec + stepS) (relLoop stepS endT start) ∧
      (∀ w ∈ (relLoop stepS endT start).dropLast,
          w.endSec - w.startSec = stepS) ∧
      (∀ x : Int, start ≤ x → x < endT →
          (relLoop stepS endT start).countP
            (fun w => decide (w.startSec ≤ x ∧ x < w.endSec)) = 1) ∧
      (∀ (vid : String) (st : St) (minutes : Int), vid ≠ "" →
          (generateWindows vid start endT minutes st).1.windows
            = relLoop (max 1 minutes * 60) endT start) := by
  intro start endT stepS hlt hstep
  refine ⟨⟨relLoop stepS endT (start + stepS), ?_⟩, ?_, relLoop_chain stepS endT start,
    relLoop_dropLast_full stepS endT start, relLoop_countP stepS endT hstep start, ?_⟩
  · rw [relLoop, dif_pos ⟨hstep, hlt⟩]
  · intro w hw
    obtain ⟨h1, h2, h3⟩ := relLoop_shape stepS endT start w hw
    refine ⟨h1, h2, h3, ?_, ?_, ?_⟩ <;> omega
  · intro vid st minutes hvid
    simp [generateWindows, hvid, hlt]

theorem manual_windows_tile_witness :
    (∃ rest, relLoop 3 10 0 = ⟨0, min (0 + 3) 10, [], "", []⟩ :: rest) ∧
    (∀ w ∈ relLoop 3 10 0,
        0 ≤ w.startSec ∧ w.startSec < 10 ∧
          w.endSec = min (w.startSec + 3) 10 ∧
          w.startSec < w.endSec ∧ w.endSec - w.startSec ≤ 3 ∧
          w.endSec ≤ 10) ∧
    List.Chain'
      (fun w1 w2 : Window => w1.endSec = w2.startSec ∧
        w2.startSec = w1.startSec + 3) (relLoop 3 10 0) ∧
    (∀ w ∈ (relLoop 3 10 0).dropLast, w.endSec - w.startSec = 3) ∧
    (∀ x : Int, 0 ≤ x → x < 10 →
        (relLoop 3 10 0).countP
          (fun w => decide (w.startSec ≤ x ∧ x < w.endSec)) = 1) ∧
    (∀ (vid : String) (st : St) (minutes : Int), vid ≠ "" →
        (generateWindows vid 0 10 minutes st).1.windows
          = relLoop (max 1 minutes * 60) 10 0) :=
  manual_windows_tile 0 10 3 (by decide) (by decide)

/-- C5 counterexample: `generateWindows` does not clear the stored coverage
set: starting from a state whose coverage is `[{startAbs: 0, endAbs: 100}]`,
a successful manual generation leaves that coverage in place (it is neither
`null` nor empty). -/
theorem generateWindows_keeps_coverage_counterexample :
    ¬ ((generateWindows ("v") 0 10 1
          ⟨"", 300, [], 0, none, some [⟨0, 100⟩]⟩).1.coverage = none ∨
       (generateWindows ("v") 0 10 1
          ⟨"", 300, [], 0, none, some [⟨0, 100⟩]⟩).1.coverage = some []) := by
  decide

/-- C5 (amended): manual-mode generation with an empty identifier or with
`end ≤ start` fails with a validation error and mutates no state; on success
(non-empty identifier, `end > start`) it sets the origin to none
(`absOrigin = null`) but leaves the stored coverage set unchanged (the
source never touches `state.coverage` here), sets the video id, and emits
the manual window loop. -/
theorem generateWindows_validation_and_origin :
    ∀ (vidInput : String) (start endT minutes : Int) (st : St),
      (vidInput = "" →
        generateWindows vidInput start endT minutes st
          = (st, some GenErr.validation)) ∧
      (¬ (start < endT) →
        generateWindows vidInput start endT minutes st
          = (st, some GenErr.validation)) ∧
      (vidInput ≠ "" → start < endT →
        (generateWindows vidInput start endT minutes st).2 = none ∧
        (generateWindows vidInput start endT minutes st).1.absOrigin = none ∧
        (generateWindows vidInput start endT minutes st).1.coverage
          = st.coverage ∧
        (generateWindows vidInput start endT minutes st).1.videoId = vidInput ∧
        (generateWindows vidInput start endT minutes st).1.windows
          = relLoop (max 1 minutes * 60) endT start) := by
  intro vidInput start endT minutes st
  refine ⟨?_, ?_, ?_⟩
  · intro h
    simp [generateWindows, h]
  · intro h
    by_cases hv : vidInput = ""
    · simp [generateWindows, hv]
    · simp [generateWindows, hv, h]
  · intro hv hlt
    simp [generateWindows, hv, hlt]

theorem generateWindows_validation_and_origin_witness :
    (generateWindows ("v") 0 10 1
        ⟨"", 300, [], 0, none, some [⟨0, 100⟩]⟩).2 = none ∧
    (generateWindows ("v") 0 10 1
        ⟨"", 300, [], 0, none, some [⟨0, 100⟩]⟩).1.absOrigin = none ∧
    (generateWindows ("v") 0 10 1
        ⟨"", 300, [], 0, none, some [⟨0, 100⟩]⟩).1.coverage
      = (⟨"", 300, [], 0, none, some [⟨0, 100⟩]⟩ : St).coverage ∧
    (generateWindows ("v") 0 10 1
        ⟨"", 300, [], 0, none, some [⟨0, 100⟩]⟩).1.videoId = "v" ∧
    (generateWindows ("v") 0 10 1
        ⟨"", 300, [], 0, none, some [⟨0, 100⟩]⟩).1.windows
      = relLoop (max 1 1 * 60) 10 0 :=
  (generateWindows_validation_and_origin ("v") 0 10 1
      ⟨"", 300, [], 0, none, some [⟨0, 100⟩]⟩).2.2 (by decide) (by decide)

/-! ### CSV export gates -/

/-- Count `entries.filter((e) => e === k).length`. -/
def countKind (k : Kind) (l : List Kind) : Nat :=
  l.countP (fun e => decide (e = k))

/-- One data row of the summary CSV.  The source renders the times as
`HH:MM:SS` strings; string formatting is presentation glue (spec §1), so the
row keeps the fields the code computes. -/
structure SummaryRow where
  windowStart : Int
  windowEnd : Int
  totalUnique : Nat
  movingCount : Nat
  stayingCount : Nat
  notes : String

/-- Source `exportCSV`: iterate the windows in order; on the first window with
`pending > 0` alert and return producing no file (`none`); otherwise collect
one row per window (`total = moving + staying`). -/
def exportCSV : List Window → Option (List SummaryRow)
  | [] => some []
  | w :: rest =>
    if 0 < countKind Kind.p w.entries then none
    else
      (exportCSV rest).map (fun rs =>
        ⟨w.startSec, w.endSec,
          countKind Kind.m w.entries + countKind Kind.s w.entries,
          countKind Kind.m w.entries, countKind Kind.s w.entries,
          w.notes⟩ :: rs)

/-- One data row of the detail CSV (`person_local_id` is rendered as
`p001`, `p002`, ... in the source; the numeric id is kept here). -/
structure DetailRow where
  windowStart : Int
  personLocalId : Nat
  behavior : Kind

/-- The `w.entries.forEach` body of `exportDetailCSV`: one row per `'m'`/`'s'`
entry, numbering them from 1 per window. -/
def detailRowsAux (startSec : Int) : Nat → List Kind → List DetailRow
  | _, [] => []
  | idx, e :: es =>
    if e = Kind.m ∨ e = Kind.s then
      ⟨startSec, idx, e⟩ :: detailRowsAux startSec (idx + 1) es
    else detailRowsAux startSec idx es

/-- Source `exportDetailCSV`: same pending gate as `exportCSV`, then one row per
classified entry. -/
def exportDetailCSV : List Window → Option (List DetailRow)
  | [] => some []
  | w :: rest =>
    if 0 < countKind Kind.p w.entries then none
    else
      (exportDetailCSV rest).map (fun rs =>
        detailRowsAux w.startSec 1 w.entries ++ rs)

theorem countKind_p_pos_iff (l : List Kind) :
    0 < countKind Kind.p l ↔ Kind.p ∈ l := by
  simp [countKind, List.countP_pos_iff]

/-- C9: if any window still contains a `Pending` entry, both CSV exporters
refuse to produce a file; if no window contains a `Pending` entry, both
produce their output. -/
theorem export_gate :
    ∀ ws : List Window,
      ((∃ w ∈ ws, Kind.p ∈ w.entries) →
        exportCSV ws = none ∧ exportDetailCSV ws = none) ∧
      ((∀ w ∈ ws, Kind.p ∉ w.entries) →
        (exportCSV ws).isSome = true ∧ (exportDetailCSV ws).isSome = true) := by
  intro ws
  induction ws with
  | nil =>
    constructor
    · rintro ⟨w, hw, _⟩
      exact absurd hw (List.not_mem_nil w)
    · intro _
      exact ⟨rfl, rfl⟩
  | cons w rest ih =>
    constructor
    · rintro ⟨w', hw', hp⟩
      rcases List.mem_cons.mp hw' with h | h
      · subst h
        have hc : 0 < countKind Kind.p w'.entries :=
          (countKind_p_pos_iff _).mpr hp
        exact ⟨by simp [exportCSV, hc], by simp [exportDetailCSV, hc]⟩
      · have hrest := ih.1 ⟨w', h, hp⟩
        exact ⟨by simp [exportCSV, hrest.1],
          by simp [exportDetailCSV, hrest.2]⟩
    · intro hall
      have hw : Kind.p ∉ w.entries := hall w (List.mem_cons_self w rest)
      have hc : ¬ (0 < countKind Kind.p w.entries) := fun hx =>
        hw ((countKind_p_pos_iff _).mp hx)
      have hrest := ih.2 (fun w' h => hall w' (List.mem_cons_of_mem w h))
      obtain ⟨v1, hv1⟩ := Option.isSome_iff_exists.mp hrest.1
      obtain ⟨v2, hv2⟩ := Option.isSome_iff_exists.mp hrest.2
      constructor
      · simp [exportCSV, if_neg hc, hv1]
      · simp [exportDetailCSV, if_neg hc, hv2]

theorem export_gate_witness :
    (exportCSV [⟨0, 300, [Kind.m], "note", []⟩]).isSome = true ∧
    (exportDetailCSV [⟨0, 300, [Kind.m], "note", []⟩]).isSome = true :=
  (export_gate [⟨0, 300, [Kind.m], "note", []⟩]).2 (by decide)

/-! ### Multi-file ingestion -/

/-- Result of `parseP(filename)` as used by the ingestion handlers.  The
parser itself is not among the analysed sources (only its callers are); the
ingestion logic uses only the parsed absolute range, so `parseP` is passed
to the handler as an abstract `String → Option PInfo` argument (`none`
models its "no match" result). -/
structure PInfo where
  startAbs : Int
  endAbs : Int
  deriving DecidableEq

/-- Base name helper `f.name.replace(/\.[^.]+$/, "")`: drop a final dot-plus-extension
(one or more non-dot characters) when present. -/
def stripExt (s : String) : String :=
  if (s.data.reverse.takeWhile (fun c => decide (c ≠ '.'))).length
      < s.data.reverse.length ∧
     0 < (s.data.reverse.takeWhile (fun c => decide (c ≠ '.'))).length then
    ⟨(s.data.reverse.drop
        ((s.data.reverse.takeWhile (fun c => decide (c ≠ '.'))).length + 1)).reverse⟩
  else s

/-- The `for (const f of files)` parse loop of the multi-file branch:
parse every filename, aborting with `none` (the per-file `alert` + `return`)
as soon as one fails. -/
def parseAllMetas (parse : String → Option PInfo) :
    List String → Option (List (String × PInfo))
  | [] => some []
  | f :: fs =>
    match parse f with
    | none => none
    | some info => (parseAllMetas parse fs).map (fun ms => (f, info) :: ms)

/-- The comparator `(a, b) => a.info.startAbs - b.info.startAbs` used by
`metas.sort`, as an ordering relation. -/
def metaLE (a b : String × PInfo) : Prop := a.2.startAbs ≤ b.2.startAbs

instance : DecidableRel metaLE := fun x y => Int.decLe x.2.startAbs y.2.startAbs

instance : IsTotal (String × PInfo) metaLE :=
  ⟨fun a b => Int.le_total a.2.startAbs b.2.startAbs⟩

instance : IsTrans (String × PInfo) metaLE :=
  ⟨fun _ _ _ h1 h2 => le_trans h1 h2⟩

/-- The multi-file branch of the `#videoFileInput` change handler
(`files.length > 1`): parse all filenames (all-or-nothing), sort by
`startAbs`, take `minStart` from the first and `maxEnd` from the last sorted
entry, suggest a group video id if the input is empty, ask for confirmation
when windows already exist (`confirmOk` models the `confirm(...)` result),
set `state.coverage` to the parsed intervals and invoke
`buildWindowsFromAbsRange(minStart, maxEnd, minutes)`.  Only the session
state is modelled; preview `video.src` and input-field writes are DOM
concerns. -/
def multiFileIngest (parse : String → Option PInfo) (files : List String)
    (vidInput : String) (minutes : Int) (confirmOk : Bool) (st : St) : St :=
  match parseAllMetas parse files with
  | none => st
  | some metas0 =>
    match List.insertionSort metaLE metas0 with
    | [] => st
    | m0 :: rest =>
      if st.windows ≠ [] ∧ confirmOk = false then st
      else
        (buildWindowsFromAbsRange
          (if vidInput = "" then stripExt m0.1 ++ "_set" else vidInput)
          m0.2.startAbs
          (List.getLast (m0 :: rest) (List.cons_ne_nil m0 rest)).2.endAbs
          minutes
          { st with coverage := some ((m0 :: rest).map
              (fun m => ⟨m.2.startAbs, m.2.endAbs⟩)) }).st

theorem parseAllMetas_eq_none_iff (parse : String → Option PInfo)
    (files : List String) :
    parseAllMetas parse files = none ↔ ∃ f ∈ files, parse f = none := by
  induction files with
  | nil => simp [parseAllMetas]
  | cons f fs ih =>
    simp only [parseAllMetas]
    cases hf : parse f with
    | none => simp [hf]
    | some info =>
      cases hrec : parseAllMetas parse fs with
      | none =>
        simp only [Option.map_none']
        constructor
        · intro _
          obtain ⟨g, hg, hgn⟩ := ih.mp hrec
          exact ⟨g, List.mem_cons_of_mem f hg, hgn⟩
        · intro _
          trivial
      | some ms =>
        simp only [Option.map_some']
        constructor
        · intro hc
          exact Option.noConfusion hc
        · rintro ⟨g, hg, hgn⟩
          rcases List.mem_cons.mp hg with h | h
          · rw [h] at hgn
            rw [hf] at hgn
            exact Option.noConfusion hgn
          · rw [ih.mpr ⟨g, h, hgn⟩] at hrec
            exact Option.noConfusion hrec

/-- C7 (amended): multi-file ingestion is all-or-nothing on parse failure:
if any filename fails to parse the whole batch is rejected with no state
mutation.  If all parse (and regeneration is confirmed or no windows exist),
the parsed files are sorted ascending by `startAbs`, the coverage set is
replaced by the parsed intervals, and wall-clock generation runs with
`startAbs` equal to the minimum of the start times but `endAbs` equal to the
`endAbs` of the *last file after sorting by `startAbs`* — which is the
maximum end time only when end times are ordered like start times, not in
general. -/
theorem multi_file_all_or_nothing :
    ∀ (parse : String → Option PInfo) (files : List String)
      (vidInput : String) (minutes : Int) (confirmOk : Bool) (st : St),
      ((∃ f ∈ files, parse f = none) →
        multiFileIngest parse files vidInput minutes confirmOk st = st) ∧
      (∀ metas0, parseAllMetas parse files = some metas0 →
        (st.windows = [] ∨ confirmOk = true) →
        ∀ m0 rest, List.insertionSort metaLE metas0 = m0 :: rest →
          (List.insertionSort metaLE metas0).Perm metas0 ∧
          List.Sorted metaLE (List.insertionSort metaLE metas0) ∧
          (∀ m ∈ metas0, m0.2.startAbs ≤ m.2.startAbs) ∧
          multiFileIngest parse files vidInput minutes confirmOk st
            = (buildWindowsFromAbsRange
                (if vidInput = "" then stripExt m0.1 ++ "_set" else vidInput)
                m0.2.startAbs
                (List.getLast (m0 :: rest) (List.cons_ne_nil m0 rest)).2.endAbs
                minutes
                { st with coverage := some ((m0 :: rest).map
                    (fun m => ⟨m.2.startAbs, m.2.endAbs⟩)) }).st) := by
  intro parse files vidInput minutes confirmOk st
  constructor
  · intro hfail
    have hnone : parseAllMetas parse files = none :=
      (parseAllMetas_eq_none_iff parse files).mpr hfail
    simp [multiFileIngest, hnone]
  · intro metas0 hsome hok m0 rest hsort
    refine ⟨List.perm_insertionSort metaLE metas0,
      List.sorted_insertionSort metaLE metas0, ?_, ?_⟩
    · intro m hm
      have hmem : m ∈ List.insertionSort metaLE metas0 :=
        ((List.perm_insertionSort metaLE metas0).mem_iff).mpr hm
      have hsorted := List.sorted_insertionSort metaLE metas0
      rw [hsort] at hmem hsorted
      rcases List.mem_cons.mp hmem with h | h
      · rw [h]
      · exact (List.sorted_cons.mp hsorted).1 m h
    · have hguard : ¬ (st.windows ≠ [] ∧ confirmOk = false) := by
        rcases hok with h | h
        · intro hc
          exact hc.1 h
        · intro hc
          rw [h] at hc
          exact Bool.noConfusion hc.2
      simp only [multiFileIngest, hsome, hsort, if_neg hguard]

/-- Parse assignment used only by the C7 witness and counterexample: file
`"a"` covers `[0, 180)`, file `"b"` covers `[60, 120)` (an overlapping pair
whose later-starting interval ends earlier), anything else fails. -/
def parse0 : String → Option PInfo := fun f =>
  if f = "a" then some ⟨0, 180⟩
  else if f = "b" then some ⟨60, 120⟩
  else none

theorem multi_file_all_or_nothing_witness :
    (List.insertionSort metaLE
        [("a", (⟨0, 180⟩ : PInfo)), ("b", ⟨60, 120⟩)]).Perm
      [("a", ⟨0, 180⟩), ("b", ⟨60, 120⟩)] ∧
    List.Sorted metaLE (List.insertionSort metaLE
      [("a", (⟨0, 180⟩ : PInfo)), ("b", ⟨60, 120⟩)]) ∧
    (∀ m ∈ [("a", (⟨0, 180⟩ : PInfo)), ("b", ⟨60, 120⟩)],
        (("a", (⟨0, 180⟩ : PInfo)) : String × PInfo).2.startAbs
          ≤ m.2.startAbs) ∧
    multiFileIngest parse0 ["a", "b"] ("v") 1 true ⟨"", 300, [], 0, none, none⟩
      = (buildWindowsFromAbsRange
          (if "v" = "" then stripExt ("a") ++ "_set" else ("v"))
          (("a", (⟨0, 180⟩ : PInfo)) : String × PInfo).2.startAbs
          (List.getLast [("a", (⟨0, 180⟩ : PInfo)), ("b", ⟨60, 120⟩)]
            (List.cons_ne_nil _ _)).2.endAbs
          1
          { (⟨"", 300, [], 0, none, none⟩ : St) with
              coverage := some
                ([("a", (⟨0, 180⟩ : PInfo)), ("b", ⟨60, 120⟩)].map
                  (fun m => ⟨m.2.startAbs, m.2.endAbs⟩)) }).st :=
  (multi_file_all_or_nothing parse0 ["a", "b"] ("v") 1 true
      ⟨"", 300, [], 0, none, none⟩).2
    [("a", ⟨0, 180⟩), ("b", ⟨60, 120⟩)] (by decide) (Or.inl rfl)
    ("a", ⟨0, 180⟩) [("b", ⟨60, 120⟩)] (by decide)

/-- C7 counterexample: with files `"a"` (range `[0, 180)`) and `"b"` (range
`[60, 120)`, all parsing successfully) and `step = 60`, the handler invokes
wall-clock generation with `endAbs = 120` (the end of the last file after
sorting by `startAbs`), not with `endAbs = 180 = max` of the end times as the
claim states: the resulting session differs from the claimed one (2 windows
instead of 3). -/
theorem multi_file_max_end_counterexample :
    multiFileIngest parse0 ["a", "b"] ("v") 1 true ⟨"", 300, [], 0, none, none⟩
      ≠ (buildWindowsFromAbsRange ("v") 0 180 1
          ⟨"", 300, [], 0, none, some [⟨0, 180⟩, ⟨60, 120⟩]⟩).st := by
  have e1 : multiFileIngest parse0 ["a", "b"] ("v") 1 true
      ⟨"", 300, [], 0, none, none⟩
      = (buildWindowsFromAbsRange ("v") 0 120 1
          ⟨"", 300, [], 0, none, some [⟨0, 180⟩, ⟨60, 120⟩]⟩).st := rfl
  rw [e1]
  intro h
  have hlen := congrArg (fun s : St => s.windows.length) h
  have hstep : max (1 : Int) 1 * 60 = 60 := by decide
  have hup : alignUp 0 60 = 0 := by decide
  have hdown120 : alignDown 120 60 = 120 := by decide
  have hdown180 : alignDown 180 60 = 180 := by decide
  simp only [buildWindowsFromAbsRange, if_neg (by decide : ¬ ("v" = "")),
    hstep, hup, hdown120, hdown180] at hlen
  simp [gridLoop, isCovered] at hlen
